import Mathlib

/-!
Verification development for the folder-search repository.

The Go sources are embedded shallowly:
* strings are modelled as lists of characters (runes),
* the filesystem read performed by `os.ReadDir` is passed in as an
  `Except` value (`.error` models a failed directory read),
* stateful code (`DirSearch.ScanDirs`, the Bubble Tea `model.Update`) is
  modelled by explicit state passing,
* the controller/worker goroutine system is modelled as a labelled
  transition system over a global state.
-/

/-- Go strings, viewed as sequences of runes. -/
abbrev Str := List Char

/-- Causes with which a directory read (`os.ReadDir`) can fail. -/
inductive ReadDirError
  | notFound
  | permissionDenied
  | notADirectory
  | other
  deriving DecidableEq

/-- One entry of a directory enumeration, as produced by `os.ReadDir`:
a name together with the directory bit (`entry.IsDir()`). -/
structure DirEntry where
  name : Str
  isDir : Bool
  deriving DecidableEq

/-- `dirsearch.Options`: configuration of a search
(dirsearch.go, second/current variant). -/
structure Options where
  SearchPattern : Str
  StartDir : Str
  CaseSensitive : Bool
  IgnorePatterns : List Str
  deriving DecidableEq

/-- `dirsearch.Result`: outcome of a directory search. -/
structure Result where
  Directories : List Str
  Error : Option ReadDirError
  deriving DecidableEq

/-- Model of Go `strings.ToLower`, rune by rune. -/
def strToLower (s : Str) : Str := s.map Char.toLower

/-- Model of Go `strings.Contains s sub`: `sub` occurs inside `s`. -/
def containsSubstr (s sub : Str) : Bool := decide (sub <:+: s)

/-- Model of Go `strings.HasPrefix s p`: `s` starts with `p`. -/
def startsWith (s p : Str) : Bool := decide (p <+: s)

/-- Model of Go `slices.Contains l x`: exact-equality membership. -/
def slicesContains (l : List Str) (x : Str) : Bool := decide (x ∈ l)

/-- The literal `".git"` tested by `Search`. -/
def gitName : Str := ".git".toList

/-- `dirsearch.DefaultOptions`. -/
def DefaultOptions : Options :=
  { SearchPattern := []
    StartDir := ".".toList
    CaseSensitive := false
    IgnorePatterns := ["node_modules".toList] }

/-- The pattern-matching decision taken for one entry inside `Search`'s
loop: keep everything when no pattern was provided, otherwise test
substring containment, verbatim or case-folded. -/
def nameMatches (caseSensitive nameProvided : Bool) (pattern nm : Str) : Bool :=
  if !nameProvided then true
  else if caseSensitive then containsSubstr nm pattern
  else containsSubstr (strToLower nm) pattern

/-- The `for _, entry := range entries` loop of `dirsearch.Search`:
skip non-directories, names starting with `".git"`, names present in
`IgnorePatterns`; append the names that match the pattern, preserving
enumeration order. -/
def searchLoop (opts : Options) (pattern : Str) (nameProvided : Bool) :
    List DirEntry → List Str
  | [] => []
  | entry :: rest =>
    if !entry.isDir then searchLoop opts pattern nameProvided rest
    else if startsWith entry.name gitName then searchLoop opts pattern nameProvided rest
    else if slicesContains opts.IgnorePatterns entry.name then
      searchLoop opts pattern nameProvided rest
    else if nameMatches opts.CaseSensitive nameProvided pattern entry.name then
      entry.name :: searchLoop opts pattern nameProvided rest
    else searchLoop opts pattern nameProvided rest

/-- `dirsearch.Search` (dirsearch.go:269-329, the `os.ReadDir` variant).
The outcome of `os.ReadDir(opts.StartDir)` is passed as `readDir`. -/
def Search (opts : Options) (readDir : Except ReadDirError (List DirEntry)) : Result :=
  let pattern := if opts.CaseSensitive then opts.SearchPattern else strToLower opts.SearchPattern
  let nameProvided : Bool := !opts.SearchPattern.isEmpty
  match readDir with
  | .error e => { Directories := [], Error := some e }
  | .ok entries =>
    { Directories := searchLoop opts pattern nameProvided entries, Error := none }

/-- `dirsearch.DirSearch`: holder of the (shared, mutable) options. -/
structure DirSearch where
  Options : Options
  deriving DecidableEq

/-- `DirSearch.ScanDirs`: writes `dir` into the shared options
(`d.Options.StartDir = dir`) and then runs `Search`.  The mutation is
modelled by returning the updated `DirSearch` next to the `Result`. -/
def ScanDirs (d : DirSearch) (dir : Str) (readDir : Except ReadDirError (List DirEntry)) :
    DirSearch × Result :=
  let newOpts := { d.Options with StartDir := dir }
  ({ Options := newOpts }, Search newOpts readDir)

section SearchLemmas

/-- The loop of `Search` is the filter of its four tests followed by the
projection to names, in enumeration order. -/
theorem searchLoop_eq_filter_map (opts : Options) (pattern : Str) (nameProvided : Bool)
    (es : List DirEntry) :
    searchLoop opts pattern nameProvided es =
      (es.filter (fun e => e.isDir && !startsWith e.name gitName &&
        !slicesContains opts.IgnorePatterns e.name &&
        nameMatches opts.CaseSensitive nameProvided pattern e.name)).map DirEntry.name := by
  induction es with
  | nil => rfl
  | cons e rest ih =>
    by_cases hd : e.isDir
    · by_cases hg : startsWith e.name gitName
      · simp [searchLoop, List.filter, hd, hg, ih]
      · by_cases hi : slicesContains opts.IgnorePatterns e.name
        · simp [searchLoop, List.filter, hd, hg, hi, ih]
        · by_cases hm : nameMatches opts.CaseSensitive nameProvided pattern e.name
          · simp [searchLoop, List.filter, hd, hg, hi, hm, ih]
          · simp [searchLoop, List.filter, hd, hg, hi, hm, ih]
    · simp [searchLoop, List.filter, hd, ih]

/-- Membership in the successful output of `Search`, phrased with
specification-level predicates: a name is returned precisely when some
enumerated entry carries it, that entry is a directory, the name does
not start with `".git"`, is not (exactly) one of the ignore names, and
satisfies the pattern test. -/
theorem mem_search_ok (opts : Options) (es : List DirEntry) (nm : Str) :
    nm ∈ (Search opts (.ok es)).Directories ↔
      ∃ e ∈ es, e.name = nm ∧ e.isDir = true ∧ ¬(gitName <+: nm) ∧
        nm ∉ opts.IgnorePatterns ∧
        (opts.SearchPattern = [] ∨
          (opts.CaseSensitive = true ∧ opts.SearchPattern <:+: nm) ∨
          (opts.CaseSensitive = false ∧
            strToLower opts.SearchPattern <:+: strToLower nm)) := by
  simp only [Search, searchLoop_eq_filter_map, List.mem_map, List.mem_filter]
  constructor
  · rintro ⟨e, ⟨he, hcond⟩, rfl⟩
    simp only [Bool.and_eq_true, Bool.not_eq_true'] at hcond
    obtain ⟨⟨⟨hd, hg⟩, hi⟩, hm⟩ := hcond
    refine ⟨e, he, rfl, hd, ?_, ?_, ?_⟩
    · simpa [startsWith] using hg
    · simpa [slicesContains] using hi
    · by_cases hp : opts.SearchPattern = []
      · exact Or.inl hp
      · have hnp : (!opts.SearchPattern.isEmpty) = true := by
          simp [List.isEmpty_iff, hp]
        rw [nameMatches] at hm
        simp only [hnp, Bool.not_true, Bool.false_eq_true, if_false] at hm
        by_cases hcs : opts.CaseSensitive
        · refine Or.inr (Or.inl ⟨hcs, ?_⟩)
          simp only [hcs, if_true] at hm
          simpa [containsSubstr, hcs] using hm
        · refine Or.inr (Or.inr ⟨by simpa using hcs, ?_⟩)
          simp only [hcs, if_false] at hm
          simpa [containsSubstr, hcs] using hm
  · rintro ⟨e, he, rfl, hd, hg, hi, hm⟩
    refine ⟨e, ⟨he, ?_⟩, rfl⟩
    simp only [Bool.and_eq_true, Bool.not_eq_true']
    refine ⟨⟨⟨hd, ?_⟩, ?_⟩, ?_⟩
    · simpa [startsWith] using hg
    · simpa [slicesContains] using hi
    · rcases hm with hp | ⟨hcs, hsub⟩ | ⟨hcs, hsub⟩
      · simp [nameMatches, hp]
      · by_cases hp : opts.SearchPattern = []
        · simp [nameMatches, hp]
        · have hnp : (!opts.SearchPattern.isEmpty) = true := by
            simp [List.isEmpty_iff, hp]
          simp [nameMatches, hnp, hcs, containsSubstr, hsub]
      · by_cases hp : opts.SearchPattern = []
        · simp [nameMatches, hp]
        · have hnp : (!opts.SearchPattern.isEmpty) = true := by
            simp [List.isEmpty_iff, hp]
          simp [nameMatches, hnp, hcs, containsSubstr, hsub]

end SearchLemmas

/-- Mapping a function over both sides preserves substring occurrence. -/
theorem substr_map (f : Char → Char) {l1 l2 : Str} (h : l1 <:+: l2) :
    l1.map f <:+: l2.map f := by
  obtain ⟨s, t, rfl⟩ := h
  exact ⟨s.map f, t.map f, by simp⟩

/-- C1: with default options (empty pattern; and any value of the
ignore list, covering the default `["node_modules"]`), `Search` over a
successful enumeration returns exactly the names of the entries that
are directories, minus every name starting with `".git"` and every name
occurring in the ignore list, in the original enumeration order, with
`Error = none`. -/
theorem c1_default_options_exact_listing (ign : List Str) (es : List DirEntry) :
    Search { DefaultOptions with IgnorePatterns := ign } (.ok es) =
      { Directories :=
          (es.filter (fun e =>
            decide (e.isDir = true ∧ ¬(gitName <+: e.name) ∧ e.name ∉ ign))).map DirEntry.name
        Error := none } := by
  simp only [Search, searchLoop_eq_filter_map]
  refine congrArg (fun l => Result.mk l none) (congrArg (List.map DirEntry.name) ?_)
  refine List.filter_congr ?_
  intro e _
  by_cases hd : e.isDir
  · by_cases hg : gitName <+: e.name
    · simp [DefaultOptions, startsWith, slicesContains, nameMatches, hd, hg]
    · by_cases hi : e.name ∈ ign
      · simp [DefaultOptions, startsWith, slicesContains, nameMatches, hd, hg, hi]
      · simp [DefaultOptions, startsWith, slicesContains, nameMatches, hd, hg, hi]
  · simp [DefaultOptions, hd]

/-- C2: when the directory read fails, `Search` returns the empty entry
list (present, not absent) together with the cause, for every options
value; and on a successful read the error field is `none`. -/
theorem c2_error_yields_empty_entries :
    (∀ (opts : Options) (e : ReadDirError),
        Search opts (.error e) = { Directories := [], Error := some e }) ∧
    (∀ (opts : Options) (es : List DirEntry), (Search opts (.ok es)).Error = none) :=
  ⟨fun _ _ => rfl, fun _ _ => rfl⟩

/-- Fixture: options with an empty pattern and `node_modules` as the
only ignore name (the `node_modules_old` scenario of the spec). -/
def nodeModulesOpts : Options :=
  { SearchPattern := []
    StartDir := ".".toList
    CaseSensitive := false
    IgnorePatterns := ["node_modules".toList] }

/-- Fixture: options searching for the pattern `test`, case-sensitively. -/
def testPatternOpts : Options :=
  { SearchPattern := "test".toList
    StartDir := ".".toList
    CaseSensitive := true
    IgnorePatterns := [] }

/-- Fixture: the enumeration `[Test, test]`, both directories. -/
def testEntries : List DirEntry :=
  [{ name := "Test".toList, isDir := true },
   { name := "test".toList, isDir := true }]

/-- C6: ignore-list filtering is exact-name.  A name is returned iff an
enumerated directory entry carries it, it does not start with `".git"`,
it is not *exactly equal* to a member of `IgnorePatterns` (list
membership, not substring), and it passes the pattern test;  in
particular `node_modules_old` survives an ignore list containing only
`node_modules`. -/
theorem c6_ignore_list_exact_name_matching :
    (∀ (opts : Options) (es : List DirEntry) (nm : Str),
      nm ∈ (Search opts (.ok es)).Directories ↔
        ∃ e ∈ es, e.name = nm ∧ e.isDir = true ∧ ¬(gitName <+: nm) ∧
          nm ∉ opts.IgnorePatterns ∧
          (opts.SearchPattern = [] ∨
            (opts.CaseSensitive = true ∧ opts.SearchPattern <:+: nm) ∨
            (opts.CaseSensitive = false ∧
              strToLower opts.SearchPattern <:+: strToLower nm))) ∧
    (Search nodeModulesOpts
        (.ok [{ name := "node_modules_old".toList, isDir := true }])).Directories
      = ["node_modules_old".toList] :=
  ⟨mem_search_ok, by decide⟩

/-- C7: for a fixed enumeration and fixed options, every name returned
by the case-sensitive search is also returned by the case-insensitive
search with the same pattern. -/
theorem c7_case_insensitive_superset (opts : Options) (es : List DirEntry) (nm : Str)
    (h : nm ∈ (Search { opts with CaseSensitive := true } (.ok es)).Directories) :
    nm ∈ (Search { opts with CaseSensitive := false } (.ok es)).Directories := by
  rw [mem_search_ok] at h ⊢
  obtain ⟨e, he, hnm, hd, hg, hi, hm⟩ := h
  refine ⟨e, he, hnm, hd, hg, hi, ?_⟩
  rcases hm with hp | ⟨_, hsub⟩ | ⟨hfalse, _⟩
  · exact Or.inl hp
  · exact Or.inr (Or.inr ⟨rfl, substr_map Char.toLower hsub⟩)
  · cases hfalse

/-- C7 witness: the entry list `[Test, test]` with pattern `test`;
case-sensitive search returns `test`, and applying the theorem shows it
is also returned case-insensitively. -/
theorem c7_witness :
    "test".toList ∈
      (Search { testPatternOpts with CaseSensitive := true } (.ok testEntries)).Directories ∧
    "test".toList ∈
      (Search { testPatternOpts with CaseSensitive := false } (.ok testEntries)).Directories :=
  ⟨by decide,
   c7_case_insensitive_superset testPatternOpts testEntries ("test".toList) (by decide)⟩

/-- C10: when the search pattern is empty, the `CaseSensitive` flag has
no influence on the result, for every enumeration outcome and every
ignore list. -/
theorem c10_empty_pattern_case_flag_irrelevant (opts : Options) (b1 b2 : Bool)
    (readDir : Except ReadDirError (List DirEntry)) (h : opts.SearchPattern = []) :
    Search { opts with CaseSensitive := b1 } readDir =
      Search { opts with CaseSensitive := b2 } readDir := by
  cases readDir with
  | error e => rfl
  | ok es =>
    simp only [Search, searchLoop_eq_filter_map]
    refine congrArg (fun l => Result.mk l none) (congrArg (List.map DirEntry.name) ?_)
    refine List.filter_congr ?_
    intro e _
    simp [nameMatches, h]

/-- C10 witness: a concrete enumeration, empty pattern, the two flag
values give the same result. -/
theorem c10_witness :
    Search { nodeModulesOpts with CaseSensitive := true } (.ok testEntries) =
      Search { nodeModulesOpts with CaseSensitive := false } (.ok testEntries) :=
  c10_empty_pattern_case_flag_irrelevant nodeModulesOpts true false (.ok testEntries) rfl

/-- C9 counterexample: `ScanDirs` does not leave the search options
unchanged.  Starting from the default options (whose `StartDir` is
`"."`), scanning `"/tmp"` overwrites the shared `Options.StartDir`
field, so the options after the call differ from the options before. -/
theorem c9_counterexample :
    (ScanDirs { Options := DefaultOptions } ("/tmp".toList) (.ok [])).1.Options ≠
      DefaultOptions := by decide

/-- C9 (amended): `ScanDirs` updates exactly the `StartDir` field of
the shared options to the given path, leaves the remaining option
fields unchanged, and returns the pure value
`Search` computed from those updated options and the single directory
read — it has no other effect. -/
theorem c9_scan_dirs_effect (d : DirSearch) (dir : Str)
    (readDir : Except ReadDirError (List DirEntry)) :
    ScanDirs d dir readDir =
      ({ Options := { d.Options with StartDir := dir } },
        Search { d.Options with StartDir := dir } readDir) ∧
    (ScanDirs d dir readDir).1.Options.SearchPattern = d.Options.SearchPattern ∧
    (ScanDirs d dir readDir).1.Options.CaseSensitive = d.Options.CaseSensitive ∧
    (ScanDirs d dir readDir).1.Options.IgnorePatterns = d.Options.IgnorePatterns ∧
    (ScanDirs d dir readDir).1.Options.StartDir = dir :=
  ⟨rfl, rfl, rfl, rfl, rfl⟩

/-- `app.Application` (internal/app, current slog variant): holds the
directory searcher. -/
structure Application where
  Dirsearch : DirSearch
  deriving DecidableEq

/-- `app.NewApplication`: builds the application; the current code
cannot fail (it always returns a nil error). -/
def NewApplication : Except ReadDirError Application :=
  .ok { Dirsearch := { Options := DefaultOptions } }

/-- `ui.InitUI` (ui.go:436-485), reduced to its error behaviour: runs
the initial scan of `"."`; a scan error, a failed working-directory
lookup, or a failed Bubble Tea run each make it return that error,
otherwise it returns no error.  The three fallible external steps are
passed as arguments. -/
def InitUI (app : Application) (initialRead : Except ReadDirError (List DirEntry))
    (getwd : Except ReadDirError Str) (runErr : Option ReadDirError) :
    Option ReadDirError :=
  let scan := ScanDirs app.Dirsearch (".".toList) initialRead
  match scan.2.Error with
  | some e => some e
  | none =>
    match getwd with
    | .error e => some e
    | .ok _ => runErr

/-- `main` (main.go:10-19): exits 1 when `NewApplication` fails;
otherwise it calls `ui.InitUI(app)` *discarding its returned error*
and falls off the end of `main`, which is process exit code 0. -/
def mainExitCode (initialRead : Except ReadDirError (List DirEntry))
    (getwd : Except ReadDirError Str) (runErr : Option ReadDirError) : Nat :=
  match NewApplication with
  | .error _ => 1
  | .ok app =>
    let _uiErr := InitUI app initialRead getwd runErr
    0

/-- C8: evaluation at the failing input.  When the initial scan fails
(here: permission denied on reading `"."`), `InitUI` does report the
error, but `main` discards it and the process exit code is 0 — not the
exit code 1 the claim states. -/
theorem c8_scan_failure_exit_code :
    InitUI { Dirsearch := { Options := DefaultOptions } }
        (.error .permissionDenied) (.ok []) none = some .permissionDenied ∧
    mainExitCode (.error .permissionDenied) (.ok []) none = 0 :=
  ⟨rfl, rfl⟩

/-- The backtracking inner loop of `Clean`'s `..` case: after the
unconditional truncation, keep removing characters (the buffer is
reversed, so removals are from the head) while the write index stays
above `dotdot` and the character just removed is not a separator. -/
def backtrackLoop (dotdot : Nat) : List Char → Char → List Char
  | [], _ => []
  | o :: orest, last =>
    if dotdot < orest.length + 1 ∧ last ≠ '/' then backtrackLoop dotdot orest o
    else o :: orest

/-- One iteration of the loop of Go `path/filepath.Clean` (unix rules).
Given the first unprocessed character `c`, the characters after it `r`,
the index `dotdot` guarding backtracking, and the output buffer `out`
(kept in reverse), it returns the remaining input together with the
updated `dotdot` and buffer.  The four branches are the four cases of
the Go `switch`: skip a separator, skip a `.` element, process a `..`
element (backtrack / emit `..` / ignore at a rooted start), or copy the
next path element. -/
def cleanStep (rooted : Bool) (c : Char) (r : List Char) (dotdot : Nat) (out : List Char) :
    List Char × Nat × List Char :=
  if c = '/' then (r, dotdot, out)
  else if c = '.' ∧ (r = [] ∨ r.head? = some '/') then (r, dotdot, out)
  else if c = '.' ∧ r.head? = some '.' ∧ (r.tail = [] ∨ r.tail.head? = some '/') then
    if dotdot < out.length then
      match out with
      | o :: orest => (r.tail, dotdot, backtrackLoop dotdot orest o)
      | [] => (r.tail, dotdot, out)
    else if rooted = false then
      let out1 := if 0 < out.length then '/' :: out else out
      let out2 := '.' :: '.' :: out1
      (r.tail, out2.length, out2)
    else (r.tail, dotdot, out)
  else
    let out1 := if (if rooted then out.length ≠ 1 else out.length ≠ 0) then '/' :: out else out
    ((r.dropWhile (fun x => x ≠ '/')), dotdot,
      ((r.takeWhile (fun x => x ≠ '/')).reverse ++ c :: out1))

/-- The main loop of `Clean`, with a fuel argument as termination
measure (every iteration consumes at least one input character, so any
fuel of at least the input length computes the Go loop exactly). -/
def cleanLoop (rooted : Bool) : Nat → List Char → Nat → List Char → List Char
  | 0, _, _, out => out
  | _ + 1, [], _, out => out
  | fuel + 1, c :: r, dotdot, out =>
    match cleanStep rooted c r dotdot out with
    | (r2, dotdot2, out2) => cleanLoop rooted fuel r2 dotdot2 out2

/-- Go `path/filepath.Clean` on unix: empty input becomes `"."`; a
rooted path starts the buffer with `/` and both indices at 1; an empty
output becomes `"."`; the buffer is reversed back at the end. -/
def cleanPath (path : List Char) : List Char :=
  match path with
  | [] => ['.']
  | c :: rest =>
    let out :=
      if c = '/' then cleanLoop true (rest.length + 1) rest 1 ['/']
      else cleanLoop false (rest.length + 2) (c :: rest) 0 []
    if out = [] then ['.'] else out.reverse

/-- Go `path/filepath.Dir` on unix: keep everything up to and including
the final separator (nothing when there is none), then `Clean` it. -/
def goDir (path : List Char) : List Char :=
  cleanPath ((path.reverse.dropWhile (fun c => c ≠ '/')).reverse)

/-- Dropping a matching run never lengthens a list. -/
theorem dropWhile_length_le (p : Char → Bool) (l : List Char) :
    (l.dropWhile p).length ≤ l.length := by
  induction l with
  | nil => simp
  | cons x xs ih =>
    by_cases h : p x
    · rw [List.dropWhile_cons_of_pos h]
      exact Nat.le_succ_of_le ih
    · rw [List.dropWhile_cons_of_neg h]

/-- A matching run stops no later than a failing element, so everything
appended after that element is invisible to `takeWhile`. -/
theorem takeWhile_append_stop (p : Char → Bool) (xs ys : List Char) (y : Char)
    (hy : p y = false) :
    ((xs ++ y :: ys).takeWhile p) = xs.takeWhile p := by
  induction xs with
  | nil => simp [List.takeWhile_cons, hy]
  | cons x xs ih =>
    by_cases h : p x
    · simp [List.takeWhile_cons, h, ih]
    · simp [List.takeWhile_cons, h]

/-- Companion of `takeWhile_append_stop` for the dropped remainder. -/
theorem dropWhile_append_stop (p : Char → Bool) (xs ys : List Char) (y : Char)
    (hy : p y = false) :
    ((xs ++ y :: ys).dropWhile p) = xs.dropWhile p ++ y :: ys := by
  induction xs with
  | nil => simp [List.dropWhile_cons, hy]
  | cons x xs ih =>
    by_cases h : p x
    · simp [List.dropWhile_cons, h, ih]
    · simp [List.dropWhile_cons, h]

/-- Each `Clean` iteration consumes input: the remaining input of a
step is never longer than the characters after the consumed one. -/
theorem cleanStep_fst_length (rooted : Bool) (c : Char) (r : List Char) (dotdot : Nat)
    (out : List Char) : (cleanStep rooted c r dotdot out).1.length ≤ r.length := by
  have htail : r.tail.length ≤ r.length := by cases r <;> simp
  unfold cleanStep
  repeat' split
  all_goals simp_all
  all_goals first
    | exact htail
    | exact dropWhile_length_le _ _

/-- Processing input extended by a final separator takes the same step,
with the separator still unconsumed at the tail of the remainder. -/
theorem cleanStep_append_slash (rooted : Bool) (c : Char) (r : List Char) (dotdot : Nat)
    (out : List Char) :
    cleanStep rooted c (r ++ ['/']) dotdot out =
      ((cleanStep rooted c r dotdot out).1 ++ ['/'],
       (cleanStep rooted c r dotdot out).2.1,
       (cleanStep rooted c r dotdot out).2.2) := by
  have hg1 : ((r ++ ['/']) = [] ∨ (r ++ ['/']).head? = some '/') ↔
      (r = [] ∨ r.head? = some '/') := by
    cases r <;> simp
  have hg2 : ((r ++ ['/']).head? = some '.') ↔ (r.head? = some '.') := by
    cases r <;> simp
  by_cases h1 : c = '/'
  · simp only [cleanStep, if_pos h1]
  · by_cases h2 : c = '.' ∧ (r = [] ∨ r.head? = some '/')
    · have h2l : c = '.' ∧ ((r ++ ['/']) = [] ∨ (r ++ ['/']).head? = some '/') :=
        ⟨h2.1, hg1.mpr h2.2⟩
      simp only [cleanStep, if_neg h1, if_pos h2l, if_pos h2]
    · have h2l : ¬(c = '.' ∧ ((r ++ ['/']) = [] ∨ (r ++ ['/']).head? = some '/')) := by
        intro hc; exact h2 ⟨hc.1, hg1.mp hc.2⟩
      by_cases h3 : c = '.' ∧ r.head? = some '.' ∧ (r.tail = [] ∨ r.tail.head? = some '/')
      · obtain ⟨rs, rfl⟩ : ∃ rs, r = '.' :: rs := by
          have hh := h3.2.1
          cases r with
          | nil => simp at hh
          | cons a rs =>
            refine ⟨rs, ?_⟩
            simp only [List.head?] at hh
            rw [Option.some_inj] at hh
            rw [hh]
        have ht : rs = [] ∨ rs.head? = some '/' := by simpa using h3.2.2
        have hslh : (rs ++ ['/']).head? = some '/' := by
          rcases ht with rfl | hhd
          · simp
          · cases rs with
            | nil => simp
            | cons b ts => simpa using hhd
        have h3l : c = '.' ∧ (('.' :: rs) ++ ['/']).head? = some '.' ∧
            ((('.' :: rs) ++ ['/']).tail = [] ∨ (('.' :: rs) ++ ['/']).tail.head? = some '/') :=
          ⟨h3.1, rfl, Or.inr (by simpa using hslh)⟩
        simp only [cleanStep, if_neg h1, if_neg h2l, if_neg h2, if_pos h3l, if_pos h3]
        by_cases hlt : dotdot < out.length
        · simp only [if_pos hlt]
          cases out with
          | nil => simp at hlt
          | cons o orest => rfl
        · simp only [if_neg hlt]
          by_cases hr : rooted = false
          · simp only [if_pos hr]
            rfl
          · simp only [if_neg hr]
            rfl
      · have h3l : ¬(c = '.' ∧ (r ++ ['/']).head? = some '.' ∧
            ((r ++ ['/']).tail = [] ∨ (r ++ ['/']).tail.head? = some '/')) := by
          rintro ⟨hc, hh, ht⟩
          have hh2 : r.head? = some '.' := hg2.mp hh
          obtain ⟨rs, rfl⟩ : ∃ rs, r = '.' :: rs := by
            cases r with
            | nil => simp at hh2
            | cons a rs =>
              refine ⟨rs, ?_⟩
              simp only [List.head?] at hh2
              rw [Option.some_inj] at hh2
              rw [hh2]
          refine h3 ⟨hc, rfl, ?_⟩
          have ht3 : (rs ++ ['/']).head? = some '/' := by
            rcases ht with ht | ht
            · simp at ht
            · simpa using ht
          cases rs with
          | nil => exact Or.inl rfl
          | cons b ts =>
            refine Or.inr ?_
            simpa using ht3
        simp only [cleanStep, if_neg h1, if_neg h2l, if_neg h2, if_neg h3l, if_neg h3,
          takeWhile_append_stop (fun x => decide (x ≠ '/')) r [] '/' (by decide),
          dropWhile_append_stop (fun x => decide (x ≠ '/')) r [] '/' (by decide)]

/-- The fuel of `cleanLoop` is only a termination device: any two fuels
at least the input length compute the same value. -/
theorem cleanLoop_fuel (rooted : Bool) :
    ∀ (f1 : Nat) (path : List Char) (f2 dotdot : Nat) (out : List Char),
      path.length ≤ f1 → path.length ≤ f2 →
      cleanLoop rooted f1 path dotdot out = cleanLoop rooted f2 path dotdot out := by
  intro f1
  induction f1 with
  | zero =>
    intro path f2 d out h1 _
    have hp : path = [] := by
      cases path with
      | nil => rfl
      | cons c r => simp at h1
    subst hp
    cases f2 <;> rfl
  | succ f ih =>
    intro path f2 d out h1 h2
    cases path with
    | nil => cases f2 <;> rfl
    | cons c r =>
      cases f2 with
      | zero => simp at h2
      | succ f2p =>
        show cleanLoop rooted (f + 1) (c :: r) d out =
          cleanLoop rooted (f2p + 1) (c :: r) d out
        rcases hst : cleanStep rooted c r d out with ⟨r2, d2, o2⟩
        have hlen : r2.length ≤ r.length := by
          have := cleanStep_fst_length rooted c r d out
          rw [hst] at this
          exact this
        simp only [cleanLoop, hst]
        exact ih r2 f2p d2 o2 (by simp at h1; omega) (by simp at h2; omega)

/-- A trailing separator does not change what `cleanLoop` computes. -/
theorem cleanLoop_append_slash (rooted : Bool) :
    ∀ (f : Nat) (rest : List Char) (dotdot : Nat) (out : List Char),
      rest.length + 1 ≤ f →
      cleanLoop rooted f (rest ++ ['/']) dotdot out = cleanLoop rooted f rest dotdot out := by
  intro f
  induction f with
  | zero => intro rest d out h; simp at h
  | succ f ih =>
    intro rest d out h
    cases rest with
    | nil =>
      show cleanLoop rooted (f + 1) ['/'] d out = cleanLoop rooted (f + 1) [] d out
      cases f <;> rfl
    | cons c r =>
      show cleanLoop rooted (f + 1) (c :: (r ++ ['/'])) d out =
        cleanLoop rooted (f + 1) (c :: r) d out
      rcases hst : cleanStep rooted c r d out with ⟨r2, d2, o2⟩
      have hstl := cleanStep_append_slash rooted c r d out
      rw [hst] at hstl
      have hlen : r2.length ≤ r.length := by
        have := cleanStep_fst_length rooted c r d out
        rw [hst] at this
        exact this
      simp only [cleanLoop, hst, hstl]
      exact ih r2 d2 o2 (by simp at h; omega)

/-- `Clean` ignores one trailing separator on a nonempty path. -/
theorem cleanPath_append_slash (p : List Char) (hp : p ≠ []) :
    cleanPath (p ++ ['/']) = cleanPath p := by
  cases p with
  | nil => exact absurd rfl hp
  | cons c rest =>
    show cleanPath (c :: (rest ++ ['/'])) = cleanPath (c :: rest)
    by_cases hc : c = '/'
    · simp only [cleanPath, if_pos hc]
      have h1 : cleanLoop true ((rest ++ ['/']).length + 1) (rest ++ ['/']) 1 ['/'] =
          cleanLoop true ((rest ++ ['/']).length + 1) rest 1 ['/'] :=
        cleanLoop_append_slash true _ rest 1 ['/'] (by simp)
      have h2 : cleanLoop true ((rest ++ ['/']).length + 1) rest 1 ['/'] =
          cleanLoop true (rest.length + 1) rest 1 ['/'] :=
        cleanLoop_fuel true _ rest _ 1 ['/'] (by simp; omega) (by simp)
      rw [h1, h2]
    · simp only [cleanPath, if_neg hc]
      have h1 : cleanLoop false ((rest ++ ['/']).length + 2) (c :: (rest ++ ['/'])) 0 [] =
          cleanLoop false ((rest ++ ['/']).length + 2) (c :: rest) 0 [] :=
        cleanLoop_append_slash false _ (c :: rest) 0 [] (by simp)
      have h2 : cleanLoop false ((rest ++ ['/']).length + 2) (c :: rest) 0 [] =
          cleanLoop false (rest.length + 2) (c :: rest) 0 [] :=
        cleanLoop_fuel false _ (c :: rest) _ 0 [] (by simp) (by simp)
      rw [h1, h2]

/-- `filepath.Dir` of a path extended by one separator-free child name
is the `Clean` of the original path: entering a child and taking the
textual parent undoes itself up to cleaning. -/
theorem goDir_append_child (p c : Str) (hp : p ≠ []) (hc : '/' ∉ c) :
    goDir (p ++ '/' :: c) = cleanPath p := by
  have hrev : (p ++ '/' :: c).reverse = c.reverse ++ '/' :: p.reverse := by
    rw [List.reverse_append, List.reverse_cons, List.append_assoc, List.singleton_append]
  have hdropC : List.dropWhile (fun x => decide (x ≠ '/')) c.reverse = [] := by
    rw [List.dropWhile_eq_nil_iff]
    intro x hx
    have hxc : x ∈ c := List.mem_reverse.mp hx
    have hne : x ≠ '/' := fun h => hc (h ▸ hxc)
    simpa using hne
  unfold goDir
  rw [hrev, dropWhile_append_stop _ c.reverse p.reverse '/' (by decide), hdropC,
    List.nil_append, List.reverse_cons, List.reverse_reverse]
  exact cleanPath_append_slash p hp

/-- The keys handled by `model.Update` (ui.go, second/current variant):
quit (`q`/`ctrl+c`), enter the selected directory (`right`), go to the
parent (`left`), select and exit (`enter`); every other key only
reaches the embedded list widget. -/
inductive Key
  | q
  | right
  | left
  | enter
  | other
  deriving DecidableEq

/-- The state of the embedded Bubble Tea list widget that the core
reads or writes: its items, cursor index, and dimensions. -/
structure ListModel where
  items : List Str
  index : Nat
  height : Nat
  width : Nat
  deriving DecidableEq

/-- The `ui.model` fields owned by the navigation core.  The channels
are modelled as effects of `Update`, the logger is dropped. -/
structure UIModel where
  list : ListModel
  choice : Str
  quitting : Bool
  currentDir : Str
  err : Option ReadDirError
  deriving DecidableEq

/-- Messages consumed by `model.Update`. -/
inductive Msg
  | windowSize (width : Nat)
  | key (k : Key)
  | response (result : Result)
  deriving DecidableEq

/-- Observable effects of one `model.Update` call: a blocking send of a
scan request on `requestChan`, re-arming `waitForResults`, closing
`doneChan`, `tea.Quit`, and delegation of the message to the embedded
list widget. -/
inductive Eff
  | sendRequest (dir : Str)
  | waitForResults
  | closeDone
  | quitProg
  | delegated
  deriving DecidableEq

/-- Constant `listHeightPadding` of ui.go. -/
def listHeightPadding : Nat := 8

/-- Constant `maxDynamicListHeight` of ui.go. -/
def maxDynamicListHeight : Nat := 24

/-- `model.Update` (ui.go:323-373).  The behaviour of the external list
widget on delegated messages is an arbitrary function `listUpd`;
`SelectedItem` of an empty list yields the zero value, the empty
string.  On `right`/`left` the new directory is computed and the model
mutated *before* the scan request is sent; on a response carrying an
error only `err` is written, otherwise the widget receives the new
items and height and `err` is cleared. -/
def Update (listUpd : Msg → ListModel → ListModel) (m : UIModel) (msg : Msg) :
    UIModel × List Eff :=
  match msg with
  | .windowSize w => ({ m with list := { m.list with width := w } }, [])
  | .key .q => ({ m with quitting := true }, [.closeDone, .quitProg])
  | .key .right =>
    let selected := (m.list.items[m.list.index]?).getD []
    let newDir := m.currentDir ++ '/' :: selected
    let m1 := { m with currentDir := newDir }
    ({ m1 with list := listUpd msg m1.list }, [.sendRequest newDir, .delegated])
  | .key .left =>
    let newDir := goDir m.currentDir
    let m1 := { m with currentDir := newDir }
    ({ m1 with list := listUpd msg m1.list }, [.sendRequest newDir, .delegated])
  | .key .enter =>
    let m1 := match m.list.items[m.list.index]? with
      | some s => { m with choice := s }
      | none => m
    (m1, [.closeDone, .quitProg])
  | .key .other => ({ m with list := listUpd msg m.list }, [.delegated])
  | .response r =>
    if r.Error.isSome then
      ({ m with err := r.Error }, [.waitForResults])
    else
      let newHeight := min (r.Directories.length + listHeightPadding) maxDynamicListHeight
      let newList := { m.list with items := r.Directories, height := newHeight }
      ({ m with err := none, list := newList }, [.waitForResults])

/-- A list updater that leaves the widget untouched, used to
instantiate the abstract widget behaviour on concrete runs. -/
def idListUpd : Msg → ListModel → ListModel := fun _ l => l

/-- Fixture: a model sitting at `/root` whose list shows the single
child directory `sub`. -/
def sampleModel : UIModel :=
  { list := { items := ["sub".toList], index := 0, height := 10, width := 20 }
    choice := []
    quitting := false
    currentDir := "/root".toList
    err := none }

/-- C3 counterexample: `currentPath` can rest at a failed candidate.
Starting at `/root` with child `sub` selected, pressing `right`
advances `currentDir` to `/root/sub` and requests its scan *before any
result exists*; when the scan response then carries an error, the
consumed response leaves `currentDir` at `/root/sub` — the candidate
whose scan failed — instead of the previous path `/root`. -/
theorem c3_counterexample :
    (Update idListUpd sampleModel (.key .right)).2 =
      [.sendRequest ("/root/sub".toList), .delegated] ∧
    ((Update idListUpd (Update idListUpd sampleModel (.key .right)).1
        (.response { Directories := [], Error := some .permissionDenied })).1).currentDir =
      "/root/sub".toList ∧
    "/root/sub".toList ≠ sampleModel.currentDir := by
  refine ⟨by decide, by decide, by decide⟩

/-- C3 (amended): consuming a scan response whose error is non-nil
changes the model only by recording that error: the item list, the
current path and every other field are untouched, and the only effect
is re-arming the wait for the next result.  (The current path may
already equal the failed candidate, since navigation keys advance it
before the scan result is known.) -/
theorem c3_error_response_only_sets_error (listUpd : Msg → ListModel → ListModel)
    (m : UIModel) (r : Result) (e : ReadDirError) (h : r.Error = some e) :
    Update listUpd m (.response r) = ({ m with err := some e }, [.waitForResults]) := by
  simp [Update, h]

/-- C3 witness: a concrete error response applied to the sample model. -/
theorem c3_witness :
    ({ Directories := [], Error := some ReadDirError.notFound } : Result).Error =
      some ReadDirError.notFound ∧
    Update idListUpd sampleModel
        (.response { Directories := [], Error := some ReadDirError.notFound }) =
      ({ sampleModel with err := some ReadDirError.notFound }, [.waitForResults]) :=
  ⟨rfl, c3_error_response_only_sets_error idListUpd sampleModel _ _ rfl⟩

/-- C4: entering a child directory and then going to the parent
returns `currentDir` to exactly the original path, for every clean
nonempty path (all reachable current paths are of this shape: the
initial one is the cleaned working directory and navigation appends
single separator-free names) and every selected child name without a
separator, independently of what the list widget does with the
delegated key messages and of any scan responses in between (responses
never modify `currentDir`). -/
theorem c4_enter_then_parent_roundtrip (lu1 lu2 : Msg → ListModel → ListModel) (m : UIModel)
    (c : Str) (hsel : m.list.items[m.list.index]? = some c)
    (hc : c ≠ []) (hcs : '/' ∉ c) (hp : m.currentDir ≠ [])
    (hclean : cleanPath m.currentDir = m.currentDir) :
    ((Update lu2 (Update lu1 m (.key .right)).1 (.key .left)).1).currentDir = m.currentDir := by
  simp only [Update, hsel, Option.getD_some]
  rw [goDir_append_child m.currentDir c hp hcs, hclean]

/-- C4 witness: from `/root` with child `sub`, `right` then `left`
restores `/root`. -/
theorem c4_witness :
    sampleModel.list.items[sampleModel.list.index]? = some ("sub".toList) ∧
    cleanPath sampleModel.currentDir = sampleModel.currentDir ∧
    ((Update idListUpd (Update idListUpd sampleModel (.key .right)).1 (.key .left)).1).currentDir =
      sampleModel.currentDir :=
  ⟨by decide, by decide,
   c4_enter_then_parent_roundtrip idListUpd idListUpd sampleModel ("sub".toList)
     (by decide) (by decide) (by decide) (by decide) (by decide)⟩

/-- Phase of the `scanInBackground` worker goroutine (ui.go:277-295):
waiting in its outer `select`, running `searchFunc`, blocked sending
the result, or returned (after the done signal, possibly abandoning an
unsent result). -/
inductive WorkerPhase
  | idle
  | scanning (dir : Str)
  | sending (dir : Str)
  | stopped
  deriving DecidableEq

/-- Global state of the controller/worker system built by `InitUI`
(ui.go:462-466): whether the event loop is blocked sending a request
on the unbuffered `requestChan`, the worker phase, whether a
`waitForResults` command is pending a receive on the unbuffered
`resultChan`, the responses delivered to the program queue but not yet
consumed by `Update`, and whether `doneChan` was closed.  `sentReqs`
and `consumed` are history variables recording, in order, the requests
accepted by the worker and the responses consumed by the controller. -/
structure SysState where
  uiSend : Option Str
  worker : WorkerPhase
  cmdWait : Bool
  inbox : List Result
  done : Bool
  sentReqs : List Str
  consumed : List Result
  deriving DecidableEq

/-- Interleaving semantics of the system, parameterised by the scan
function the worker runs (`app.Dirsearch.ScanDirs`, whose value on a
request depends only on the requested directory).  Unbuffered channels
are rendezvous: a send completes exactly when a matching receive is
ready, in one transition. -/
inductive Step (scanFn : Str → Result) : SysState → SysState → Prop
  /- After the done signal the program is quitting: the closing of the
  channels by the exiting worker and the zero-value message a closed
  `resultChan` yields to a still-armed `waitForResults` belong to
  teardown, not to the request/response protocol, and are not part of
  the consumed scan responses.  `keyNav` over-approximates the paths a
  key can request, which only widens the set of modelled runs. -/
  | keyNav (s : SysState) (d : Str) (h1 : s.uiSend = none) (h2 : s.done = false) :
      Step scanFn s { s with uiSend := some d }
  | keyQuit (s : SysState) (h1 : s.uiSend = none) (h2 : s.done = false) :
      Step scanFn s { s with done := true }
  | reqHandoff (s : SysState) (d : Str) (h1 : s.uiSend = some d) (h2 : s.worker = .idle) :
      Step scanFn s
        { s with uiSend := none, worker := .scanning d, sentReqs := s.sentReqs ++ [d] }
  | scanDone (s : SysState) (d : Str) (h : s.worker = .scanning d) :
      Step scanFn s { s with worker := .sending d }
  | resHandoff (s : SysState) (d : Str) (h1 : s.worker = .sending d) (h2 : s.cmdWait = true) :
      Step scanFn s
        { s with worker := .idle, cmdWait := false, inbox := s.inbox ++ [scanFn d] }
  | consume (s : SysState) (r : Result) (rest : List Result) (h1 : s.uiSend = none)
      (h2 : s.done = false) (h3 : s.inbox = r :: rest) :
      Step scanFn s
        { s with inbox := rest, consumed := s.consumed ++ [r], cmdWait := true }
  | workerExitIdle (s : SysState) (h1 : s.done = true) (h2 : s.worker = .idle) :
      Step scanFn s { s with worker := .stopped }
  | workerExitSending (s : SysState) (d : Str) (h1 : s.done = true)
      (h2 : s.worker = .sending d) :
      Step scanFn s { s with worker := .stopped }

/-- The state right after `InitUI` and `model.Init` complete: the
initial request for the working directory `d0` has been handed to the
worker (the blocking send inside `Init` has returned) and the first
`waitForResults` command is armed. -/
def initState (d0 : Str) : SysState :=
  { uiSend := none
    worker := .scanning d0
    cmdWait := true
    inbox := []
    done := false
    sentReqs := [d0]
    consumed := [] }

/-- States reachable from the initialised system. -/
def SysReachable (scanFn : Str → Result) (d0 : Str) (s : SysState) : Prop :=
  Relation.ReflTransGen (Step scanFn) (initState d0) s

/-- The response the worker still owes for its current request:
one result while a request is inside the worker, none otherwise. -/
def pendingOf (scanFn : Str → Result) : WorkerPhase → List Result
  | .scanning d => [scanFn d]
  | .sending d => [scanFn d]
  | .idle => []
  | .stopped => []

/-- Inductive invariant of the system: an armed `waitForResults` means
an empty inbox, the inbox holds at most one response, and the history
satisfies: while the worker is alive, consumed responses, queued
responses and the response still owed are exactly the responses to the
accepted requests in order; after the worker stopped (it may abandon
one response at shutdown) they form a prefix missing at most one. -/
def SysInv (scanFn : Str → Result) (s : SysState) : Prop :=
  (s.cmdWait = true → s.inbox = []) ∧
  s.inbox.length ≤ 1 ∧
  (s.worker = .stopped →
    (s.consumed ++ s.inbox <+: s.sentReqs.map scanFn ∧
      s.sentReqs.length ≤ s.consumed.length + s.inbox.length + 1)) ∧
  (s.worker ≠ .stopped →
    s.consumed ++ s.inbox ++ pendingOf scanFn s.worker = s.sentReqs.map scanFn)

/-- The invariant holds initially. -/
theorem sysInv_init (scanFn : Str → Result) (d0 : Str) : SysInv scanFn (initState d0) := by
  refine ⟨fun _ => rfl, by simp [initState], fun h => by simp [initState] at h, fun _ => ?_⟩
  simp [initState, pendingOf]

/-- The invariant is preserved by every transition. -/
theorem sysInv_step {scanFn : Str → Result} {s s2 : SysState} (hstep : Step scanFn s s2)
    (hI : SysInv scanFn s) : SysInv scanFn s2 := by
  obtain ⟨hcw, hlen, hstop, hact⟩ := hI
  cases hstep with
  | keyNav d h1 h2 => exact ⟨hcw, hlen, hstop, hact⟩
  | keyQuit h1 h2 => exact ⟨hcw, hlen, hstop, hact⟩
  | reqHandoff d h1 h2 =>
    refine ⟨hcw, hlen, ?_, ?_⟩
    · intro habs; simp at habs
    · intro _
      have := hact (by rw [h2]; intro habs; cases habs)
      rw [h2] at this
      simp only [pendingOf, List.append_nil] at this
      simp only [pendingOf, List.map_append, List.map_cons, List.map_nil]
      rw [this]
  | scanDone d h =>
    refine ⟨hcw, hlen, ?_, ?_⟩
    · intro habs; simp at habs
    · intro _
      have := hact (by rw [h]; intro habs; cases habs)
      rw [h] at this
      simpa [pendingOf] using this
  | resHandoff d h1 h2 =>
    have hin : s.inbox = [] := hcw h2
    refine ⟨?_, ?_, ?_, ?_⟩
    · intro habs; simp at habs
    · simp [hin]
    · intro habs; simp at habs
    · intro _
      have := hact (by rw [h1]; intro habs; cases habs)
      rw [h1] at this
      simp only [pendingOf] at this
      simp only [pendingOf, hin, List.nil_append, List.append_nil] at this ⊢
      simpa using this
  | consume r rest h1 h2 h3 =>
    have hrest : rest = [] := by
      rw [h3] at hlen
      simp at hlen
      simpa [List.length_eq_zero] using hlen
    refine ⟨fun _ => hrest, ?_, ?_, ?_⟩
    · simp [hrest]
    · intro hw
      obtain ⟨hpre, hct⟩ := hstop hw
      rw [h3] at hpre hct
      constructor
      · simpa [List.append_assoc] using hpre
      · simp only [List.length_append, List.length_cons, List.length_nil] at hct ⊢
        omega
    · intro hw
      have := hact hw
      rw [h3] at this
      simp only [List.append_assoc] at this ⊢
      simpa using this
  | workerExitIdle h1 h2 =>
    refine ⟨hcw, hlen, ?_, ?_⟩
    · intro _
      have := hact (by rw [h2]; intro habs; cases habs)
      rw [h2] at this
      simp only [pendingOf, List.append_nil] at this
      constructor
      · exact ⟨[], by simpa using this⟩
      · have hl := congrArg List.length this
        simp only [List.length_append, List.length_map] at hl
        show s.sentReqs.length ≤ s.consumed.length + s.inbox.length + 1
        omega
    · intro habs; exact absurd rfl habs
  | workerExitSending d h1 h2 =>
    refine ⟨hcw, hlen, ?_, ?_⟩
    · intro _
      have := hact (by rw [h2]; intro habs; cases habs)
      rw [h2] at this
      simp only [pendingOf] at this
      constructor
      · exact ⟨[scanFn d], this⟩
      · have hl := congrArg List.length this
        simp only [List.length_append, List.length_map, List.length_cons,
          List.length_nil] at hl
        show s.sentReqs.length ≤ s.consumed.length + s.inbox.length + 1
        omega
    · intro habs; exact absurd rfl habs

/-- The invariant holds in every reachable state. -/
theorem sysInv_reachable {scanFn : Str → Result} {d0 : Str} {s : SysState}
    (h : SysReachable scanFn d0 s) : SysInv scanFn s := by
  induction h with
  | refl => exact sysInv_init scanFn d0
  | tail _ hstep ih => exact sysInv_step hstep ih

/-- The worker never owes more than one response. -/
theorem pendingOf_length_le (scanFn : Str → Result) (w : WorkerPhase) :
    (pendingOf scanFn w).length ≤ 1 := by
  cases w <;> simp [pendingOf]

/-- C5: in every reachable state of the controller/worker system, at
most one accepted scan request lacks a delivered response (the number
of accepted requests exceeds consumed plus queued responses by at most
one — the single request inside the single sequential worker), and the
responses the controller consumes are exactly the responses to the
accepted requests, in the order the requests were sent. -/
theorem c5_single_request_in_flight_and_fifo (scanFn : Str → Result) (d0 : Str)
    (s : SysState) (h : SysReachable scanFn d0 s) :
    s.sentReqs.length ≤ s.consumed.length + s.inbox.length + 1 ∧
    s.consumed <+: s.sentReqs.map scanFn := by
  obtain ⟨hcw, hlen, hstop, hact⟩ := sysInv_reachable h
  by_cases hw : s.worker = WorkerPhase.stopped
  · obtain ⟨hpre, hct⟩ := hstop hw
    exact ⟨hct, (List.prefix_append s.consumed s.inbox).trans hpre⟩
  · have heq := hact hw
    constructor
    · have hl := congrArg List.length heq
      simp only [List.length_append, List.length_map] at hl
      have hp := pendingOf_length_le scanFn s.worker
      omega
    · exact ⟨s.inbox ++ pendingOf scanFn s.worker, by rw [← List.append_assoc]; exact heq⟩

/-- Fixture: a scan function answering every request with an empty
successful listing. -/
def constScan : Str → Result := fun _ => { Directories := [], Error := none }

/-- C5 witness: the initial state is reachable, and the theorem
instantiates on it. -/
theorem c5_witness :
    (initState ("/a".toList)).sentReqs.length ≤
      (initState ("/a".toList)).consumed.length + (initState ("/a".toList)).inbox.length + 1 ∧
    (initState ("/a".toList)).consumed <+: (initState ("/a".toList)).sentReqs.map constScan :=
  c5_single_request_in_flight_and_fifo constScan ("/a".toList) (initState ("/a".toList))
    Relation.ReflTransGen.refl
